import Mathlib

/-!
Verification development for the yoink temporary-package execution tool.

The Python source is shallowly embedded: pure string manipulation becomes
functions on `String` and `List Char`; filesystem-dependent operations become
functions over explicit, abstract views of the filesystem state (existence
flags, directory listings); subprocess results become explicit outcome values.
`shutil.rmtree`, `mkdir` and `touch` are modelled as succeeding, and
`Path.resolve` as the identity (no symlinks in the model).
-/

namespace Yoink

/-! ### Package spec parsing (`yoink_engine.parse_package_spec`) -/

/-- Splits a character list at the LAST occurrence of `c`, returning the parts
before and after that occurrence, or `none` when `c` does not occur.  This is
Python `str.rsplit(c, 1)` restricted to a single-character separator, combined
with the `c in s` membership test used by `parse_package_spec`. -/
def rsplitLast (c : Char) : List Char → Option (List Char × List Char)
  | [] => none
  | a :: rest =>
    match rsplitLast c rest with
    | some (before, after) => some (a :: before, after)
    | none => if a = c then some ([], rest) else none

/-- Embedding of `parse_package_spec` from `yoink_engine.py`: a spec
`name[@version]` is split on the last `@`; with no `@` the version is absent. -/
def parse_package_spec (spec : String) : String × Option String :=
  match rsplitLast '@' spec.data with
  | some (n, v) => (⟨n⟩, some ⟨v⟩)
  | none => (spec, none)

/-! ### Cache key construction and cache resolution (`cli.main`) -/

/-- Python truthiness of the optional version string: `None` and the empty
string are falsy, every other string is truthy. -/
def versionTruthy : Option String → Bool
  | none => false
  | some v => !v.data.isEmpty

/-- `safe_pkg_name_for_dir` from `cli.py`: `/` and `:` replaced by `_`
(`str.replace` with single-character arguments is a character map). -/
def safe_pkg_name_for_dir (s : String) : String :=
  ⟨(s.data.map fun c => if c = '/' then '_' else c).map
    fun c => if c = ':' then '_' else c⟩

/-- `version_suffix` from `cli.py`: `@<version>` when a version is truthy,
otherwise the literal `_latest`. -/
def version_suffix (v : Option String) : String :=
  if versionTruthy v then "@" ++ v.getD "" else "_latest"

/-- `cache_subdir_name` from `cli.py`: sanitized package name concatenated
with the version suffix. -/
def cache_subdir_name (base : String) (v : Option String) : String :=
  safe_pkg_name_for_dir base ++ version_suffix v

/-- The filesystem observations the cache resolver in `cli.main` makes about
the install dir for the computed cache key: whether the directory exists,
whether `.yoinked` inside it is a regular file, and whether
`find_executable_in_prefix` finds the command inside it. -/
structure CacheView where
  prefixExists : Bool
  markerIsFile : Bool
  locatorFinds : Bool
  deriving DecidableEq

/-- The resolver's decision: whether an existing install dir was discarded
(`shutil.rmtree`) and whether a fetch (`yoink_package`) must run. -/
structure Decision where
  discarded : Bool
  fetchNeeded : Bool
  deriving DecidableEq

/-- Embedding of the cache-resolution logic of `cli.main` (the
`if pkg_version_requested / elif / else` chain): pinned versions always
discard any existing dir and fetch; unpinned requests reuse the dir exactly
when it exists, carries the marker, and the locator finds the command. -/
def resolve_cache (v : Option String) (cv : CacheView) : Decision :=
  if versionTruthy v then
    { discarded := cv.prefixExists, fetchNeeded := true }
  else if cv.prefixExists && cv.markerIsFile then
    if cv.locatorFinds then { discarded := false, fetchNeeded := false }
    else { discarded := true, fetchNeeded := true }
  else
    { discarded := cv.prefixExists, fetchNeeded := true }

/-! ### Fetch-and-extract orchestrator (`yoink_engine.yoink_package`) -/

/-- Abstract filesystem state of one fetch attempt: `installDir = none` means
the install dir does not exist, `installDir = some m` means it exists and `m`
records whether the `.yoinked` marker is inside; `stagingDir` records whether
the temporary download directory exists. -/
structure EngineFS where
  installDir : Option Bool
  stagingDir : Bool
  deriving DecidableEq

/-- Which fallible step of the `try` block of `yoink_package` fails, if any.
`unexpected created` is an unexpected exception, raised after the install dir
was created (`created = true`) or before. -/
inductive FetchOutcome where
  | downloadFail
  | archiveNotFound
  | extractFail
  | unexpected (created : Bool)
  | success
  deriving DecidableEq

/-- `install_prefix.mkdir(parents=True, exist_ok=True)`: creates the dir,
keeping its contents when it already exists. -/
def mkdirInstall (s : EngineFS) : EngineFS :=
  { s with installDir := some (s.installDir.getD false) }

/-- `(install_prefix / ".yoinked").touch()`: writes the marker into the
(existing) install dir. -/
def touchMarker (s : EngineFS) : EngineFS :=
  { s with installDir := s.installDir.map fun _ => true }

/-- The `finally` block of `yoink_package`: when the attempt failed, the
install dir is removed if it exists; the staging dir is always removed if it
exists. -/
def finallyCleanup (ok : Bool) (s : EngineFS) : EngineFS :=
  let s1 := if !ok && s.installDir.isSome then { s with installDir := none } else s
  { s1 with stagingDir := false }

/-- Embedding of `yoink_package` from `yoink_engine.py` over the abstract
state: the staging dir is created, then the download, archive-location,
extraction and marker steps run until the step designated by `outcome` fails
(exceptions from the download and extract commands and unexpected exceptions
are caught), and the `finally` block cleans up.  Returns
`is_successful_yoink` and the final state. -/
def yoink_package (outcome : FetchOutcome) (s : EngineFS) : Bool × EngineFS :=
  let s1 : EngineFS := { s with stagingDir := true }
  match outcome with
  | .downloadFail => (false, finallyCleanup false s1)
  | .archiveNotFound => (false, finallyCleanup false s1)
  | .extractFail => (false, finallyCleanup false (mkdirInstall s1))
  | .unexpected created =>
      (false, finallyCleanup false (if created then mkdirInstall s1 else s1))
  | .success =>
      (true, finallyCleanup true (touchMarker (mkdirInstall s1)))

/-! ### Backend registry (`pms/base.py`) -/

/-- The ambient system consulted by `check_available`: `shutil.which` and
whether running a resolved command with the given arguments exits
successfully (`subprocess.run(..., check=True)` not raising). -/
structure SysEnv where
  which : String → Option String
  runOk : String → List String → Bool

/-- The data of one registered backend class that availability checking
depends on: `_check_command_path` and `_check_command_args`. -/
structure PMClass where
  checkCommandPath : String
  checkCommandArgs : List String
  deriving DecidableEq

/-- `PackageManager.check_available`: the tool must resolve on the search
path, and the trivial version-query invocation must exit successfully. -/
def check_available (env : SysEnv) (pm : PMClass) : Bool :=
  match env.which pm.checkCommandPath with
  | none => false
  | some p => env.runOk p pm.checkCommandArgs

/-- `PackageManager.get_active`: walk the registry in registration order and
return the first backend whose availability check passes. -/
def get_active (env : SysEnv) : List PMClass → Option PMClass
  | [] => none
  | pm :: rest => if check_available env pm then some pm else get_active env rest

/-- `PackageManager.register`: append the class unless already registered. -/
def register (pm : PMClass) (reg : List PMClass) : List PMClass :=
  if pm ∈ reg then reg else reg ++ [pm]

/-- A sequence of `register` calls, applied in order to a registry. -/
def registerAll (pms : List PMClass) (reg : List PMClass) : List PMClass :=
  pms.foldl (fun acc pm => register pm acc) reg

/-! ### Executable locator (`yoink_engine.find_executable_in_prefix`) -/

/-- A filesystem path as a list of name segments below an implicit root. -/
abbrev FsPath := List String

/-- The filesystem predicates the locator consults: `Path.is_dir`,
`Path.is_file` and `os.access(-, os.X_OK)`. -/
structure FsView where
  isDir : FsPath → Bool
  isFile : FsPath → Bool
  execOk : FsPath → Bool

/-- The fixed, ordered list of directories searched inside the install dir,
exactly the `search_dirs` list of the source. -/
def search_dirs (root : FsPath) : List FsPath :=
  [root ++ ["bin"], root ++ ["usr", "bin"], root ++ ["sbin"],
   root ++ ["usr", "sbin"], root ++ ["usr", "local", "bin"], root]

/-- The `for directory in search_dirs` loop of the source: for each candidate
directory that exists, the entry named exactly `cmd` is returned when it is a
regular file with execute permission; otherwise the next directory is tried. -/
def findExecLoop (fs : FsView) (cmd : String) : List FsPath → Option FsPath
  | [] => none
  | d :: ds =>
    if fs.isDir d then
      if fs.isFile (d ++ [cmd]) && fs.execOk (d ++ [cmd]) then some (d ++ [cmd])
      else findExecLoop fs cmd ds
    else findExecLoop fs cmd ds

/-- Embedding of `find_executable_in_prefix` from `yoink_engine.py`
(`Path.resolve` modelled as the identity). -/
def find_executable_in_prefix (fs : FsView) (root : FsPath) (cmd : String) :
    Option FsPath :=
  findExecLoop fs cmd (search_dirs root)

/-- A candidate directory yields the executable exactly when the directory
exists and the file named `cmd` inside it is a regular executable file. -/
def dirHit (fs : FsView) (cmd : String) (d : FsPath) : Bool :=
  fs.isDir d && (fs.isFile (d ++ [cmd]) && fs.execOk (d ++ [cmd]))

/-! ### Archive location in the backend adapters (`pms/apt.py`, `pms/dnf.py`,
`pms/pacman.py`).  A staging directory is its ordered listing of file names
(`pathlib.Path.glob` yields entries in directory order); pacman entries also
carry an mtime.  A glob pattern of the shape `P*S` with literal `P` and `S`
matches a name exactly when the name starts with `P`, ends with `S`, and is
long enough that the two parts do not overlap. -/

/-- One-star glob `P*S` on a file name (`*` matches any, possibly empty,
character sequence). -/
def globStar (p s name : List Char) : Bool :=
  p.isPrefixOf name && (s.isSuffixOf name &&
    decide (p.length + s.length ≤ name.length))

namespace APT

/-- `APT.find_downloaded_archive`: glob `base_*.deb` first, falling back to
`base*.deb`, returning the first entry of the match list. -/
def find_downloaded_archive (entries : List (List Char)) (base : List Char) :
    Option (List Char) :=
  let files := entries.filter (globStar (base ++ ['_']) ".deb".data)
  let files :=
    if files.isEmpty then entries.filter (globStar base ".deb".data) else files
  files.head?

end APT

namespace DNF

/-- `DNF.find_downloaded_archive`: glob `base-*.rpm` first, falling back to
`base*.rpm`, returning the first entry of the match list. -/
def find_downloaded_archive (entries : List (List Char)) (base : List Char) :
    Option (List Char) :=
  let files := entries.filter (globStar (base ++ ['-']) ".rpm".data)
  let files :=
    if files.isEmpty then entries.filter (globStar base ".rpm".data) else files
  files.head?

end DNF

/-- The ordered extension list tried by `Pacman.find_downloaded_archive`. -/
def pacmanExtensions : List (List Char) :=
  [".pkg.tar.zst".data, ".pkg.tar.xz".data, ".pkg.tar.gz".data,
   ".pkg.tar.bz2".data, ".pkg.tar".data]

/-- The files matching `base-*<ext>` in the staging listing. -/
def pacmanMatches (entries : List (List Char × Nat)) (base ext : List Char) :
    List (List Char × Nat) :=
  entries.filter fun e => globStar (base ++ ['-']) ext e.1

/-- Stable insertion of an entry into a list sorted by descending mtime:
the entry goes before the first strictly older entry, after equal mtimes. -/
def insertMtimeDesc (x : List Char × Nat) :
    List (List Char × Nat) → List (List Char × Nat)
  | [] => [x]
  | y :: ys => if y.2 ≤ x.2 then x :: y :: ys else y :: insertMtimeDesc x ys

/-- Python `files.sort(key=mtime, reverse=True)`: the stable descending sort
by mtime (stable sorting by a key is a unique function, so this insertion
sort computes the same list as Python's sort). -/
def sortMtimeDesc : List (List Char × Nat) → List (List Char × Nat)
  | [] => []
  | x :: xs => insertMtimeDesc x (sortMtimeDesc xs)

/-- The `for ext_suffix in extensions` loop of `Pacman.find_downloaded_archive`:
the first extension with a non-empty match list wins, and among its matches
the most-recently-modified file is returned. -/
def pacmanLoop (entries : List (List Char × Nat)) (base : List Char) :
    List (List Char) → Option (List Char)
  | [] => none
  | ext :: exts =>
    let files := pacmanMatches entries base ext
    if files.isEmpty then pacmanLoop entries base exts
    else ((sortMtimeDesc files).head?).map fun e => e.1

namespace Pacman

/-- `Pacman.find_downloaded_archive`: try the five `.pkg.tar.*` extensions in
order; on the first extension with matches, sort them by mtime descending and
return the newest. -/
def find_downloaded_archive (entries : List (List Char × Nat))
    (base : List Char) : Option (List Char) :=
  pacmanLoop entries base pacmanExtensions

end Pacman

/-! ### Cache purge (`yoink_engine.purge_cache`) -/

/-- Embedding of `purge_cache`: the cache root is `none` when the directory
does not exist and `some entries` when it exists with the given entries.
When the root exists it is removed and recreated empty; when it does not
exist, the function reports success without creating anything (`rmtree` and
`mkdir` modelled as succeeding, so the `OSError` branch is unreachable).
Returns the success flag and the new root state. -/
def purge_cache (root : Option (List String)) : Bool × Option (List String) :=
  match root with
  | some _ => (true, some [])
  | none => (true, none)

/-! ## Theorems -/

/-! ### Helper lemmas about `rsplitLast` -/

theorem rsplitLast_eq_none_iff (c : Char) (l : List Char) :
    rsplitLast c l = none ↔ c ∉ l := by
  induction l with
  | nil => simp [rsplitLast]
  | cons a rest ih =>
    cases h : rsplitLast c rest with
    | some p =>
      obtain ⟨p1, p2⟩ := p
      have hc : c ∈ rest := by
        by_contra hcn
        simp [ih.mpr hcn] at h
      simp [rsplitLast, h, hc]
    | none =>
      have hc : c ∉ rest := ih.mp h
      by_cases hac : a = c
      · subst hac
        simp [rsplitLast, h]
      · simp [rsplitLast, h, hac, hc, Ne.symm hac]

theorem rsplitLast_append (c : Char) (a b : List Char) (hb : c ∉ b) :
    rsplitLast c (a ++ c :: b) = some (a, b) := by
  induction a with
  | nil =>
    simp [rsplitLast, (rsplitLast_eq_none_iff c b).mpr hb]
  | cons x xs ih =>
    simp [rsplitLast, ih]

/-! ### C6: `parse_package_spec` splits on the last `@` -/

/-- C6: for every input string, `parse_package_spec` splits on the last `@`:
a string of the shape `a ++ "@" ++ b` with no `@` in `b` yields
`(a, some b)`, a string with no `@` yields itself with no version, and in
particular `"a@b@c"` yields `("a@b", "c")` and `"cowsay"` yields
`("cowsay", none)`. -/
theorem parse_package_spec_splits_on_last_at :
    (∀ a b : String, '@' ∉ b.data →
        parse_package_spec (a ++ "@" ++ b) = (a, some b)) ∧
    (∀ s : String, '@' ∉ s.data → parse_package_spec s = (s, none)) ∧
    parse_package_spec "a@b@c" = ("a@b", some "c") ∧
    parse_package_spec "cowsay" = ("cowsay", none) := by
  refine ⟨?_, ?_, by decide, by decide⟩
  · intro a b hb
    have hdata : (a ++ "@" ++ b).data = a.data ++ '@' :: b.data := by
      simp [String.data_append]
    rw [parse_package_spec, hdata, rsplitLast_append '@' a.data b.data hb]
  · intro s hs
    rw [parse_package_spec, (rsplitLast_eq_none_iff '@' s.data).mpr hs]

/-- Witness for C6 at a concrete split. -/
theorem parse_package_spec_splits_witness :
    parse_package_spec ("a" ++ "@" ++ "b") = ("a", some "b") :=
  parse_package_spec_splits_on_last_at.1 "a" "b" (by decide)

/-! ### C9: a trailing `@` yields an empty-string version, treated as latest -/

/-- C9: for every spec ending in `@`, `parse_package_spec` returns the pair
of the part before the final `@` and the empty-string version; the empty
string is falsy, so the cache subdirectory gets the `_latest` suffix and the
resolver behaves exactly as for an absent version (the pinned-version discard
branch is not taken). -/
theorem trailing_at_behaves_as_latest :
    (∀ s : String, parse_package_spec (s ++ "@") = (s, some "")) ∧
    versionTruthy (some "") = false ∧
    (∀ base : String,
        cache_subdir_name base (some "") =
          safe_pkg_name_for_dir base ++ "_latest") ∧
    (∀ cv : CacheView, resolve_cache (some "") cv = resolve_cache none cv) := by
  refine ⟨?_, by decide, fun base => rfl, fun cv => rfl⟩
  intro s
  have hdata : (s ++ "@").data = s.data ++ '@' :: [] := by
    simp [String.data_append]
  rw [parse_package_spec, hdata, rsplitLast_append '@' s.data [] (by simp)]

/-! ### C2: pinned versions always discard and fetch, on a distinct key -/

theorem version_suffix_truthy (v : String)
    (hv : versionTruthy (some v) = true) :
    version_suffix (some v) = "@" ++ v := by
  simp [version_suffix, hv]

/-- C2: for every request with a truthy pinned version, the resolver discards
the install dir exactly when it exists and always fetches, and the pinned
cache subdirectory name differs from the unpinned (`_latest`) one for the
same package name. -/
theorem pinned_version_discards_and_fetches :
    (∀ (v : String) (cv : CacheView), versionTruthy (some v) = true →
        resolve_cache (some v) cv =
          { discarded := cv.prefixExists, fetchNeeded := true }) ∧
    (∀ base v : String, versionTruthy (some v) = true →
        cache_subdir_name base (some v) ≠ cache_subdir_name base none) := by
  constructor
  · intro v cv hv
    simp [resolve_cache, hv]
  · intro base v hv heq
    rw [cache_subdir_name, cache_subdir_name, version_suffix_truthy v hv] at heq
    have hd := congrArg String.data heq
    rw [String.data_append, String.data_append, String.data_append] at hd
    have h2 := List.append_cancel_left hd
    rw [show ("@" : String).data = ['@'] from by decide,
      show (version_suffix none).data = '_' :: "latest".data from by decide] at h2
    rw [List.singleton_append] at h2
    injection h2 with h3 h4
    exact absurd h3 (by decide)

/-- Witness for C2 at a concrete pinned request. -/
theorem pinned_version_witness :
    resolve_cache (some "1.0") ⟨true, true, true⟩ = ⟨true, true⟩ ∧
    cache_subdir_name "pkg" (some "1.0") ≠ cache_subdir_name "pkg" none :=
  ⟨pinned_version_discards_and_fetches.1 "1.0" ⟨true, true, true⟩ (by decide),
   pinned_version_discards_and_fetches.2 "pkg" "1.0" (by decide)⟩

/-! ### C3: unpinned requests reuse only complete, working prefixes -/

/-- C3: for every unpinned request, the resolver skips the fetch exactly when
the install dir exists, carries the `.yoinked` marker, and the locator finds
the command; a reuse never discards; an existing dir without the marker, or
with the marker but without a locatable executable, is discarded and
refetched; a missing marker always forces a fetch. -/
theorem unpinned_reuse_requires_marker_and_executable :
    ∀ cv : CacheView,
      ((resolve_cache none cv).fetchNeeded = false ↔
        cv.prefixExists = true ∧ cv.markerIsFile = true ∧
          cv.locatorFinds = true) ∧
      ((resolve_cache none cv).fetchNeeded = false →
        resolve_cache none cv = ⟨false, false⟩) ∧
      (cv.prefixExists = true → cv.markerIsFile = false →
        resolve_cache none cv = ⟨true, true⟩) ∧
      (cv.prefixExists = true → cv.markerIsFile = true →
        cv.locatorFinds = false → resolve_cache none cv = ⟨true, true⟩) ∧
      (cv.markerIsFile = false → (resolve_cache none cv).fetchNeeded = true) := by
  rintro ⟨p, m, f⟩
  cases p <;> cases m <;> cases f <;> exact (by decide)

/-- Witness for C3: an existing dir without the marker is discarded and
refetched. -/
theorem unpinned_reuse_witness :
    resolve_cache none ⟨true, false, false⟩ = ⟨true, true⟩ :=
  (unpinned_reuse_requires_marker_and_executable ⟨true, false, false⟩).2.2.1
    rfl rfl

/-! ### C8: cache purge -/

/-- C8 counterexample: when the cache root does not exist, `purge_cache`
reports success but does NOT recreate the root as an empty directory — the
root still does not exist afterwards, refuting the unconditional
remove-and-recreate reading of the claim. -/
theorem purge_cache_missing_root_not_recreated :
    (purge_cache none).1 = true ∧ (purge_cache none).2 = none ∧
      (purge_cache none).2 ≠ some [] := by
  refine ⟨rfl, rfl, by decide⟩

/-- C8 amended: `purge_cache` always reports success; when the cache root
exists (with any nested entries) it is removed and recreated empty; when the
root does not exist nothing is created and the root remains absent. -/
theorem purge_cache_amended :
    ∀ root : Option (List String),
      (purge_cache root).1 = true ∧
      (∀ l, root = some l → (purge_cache root).2 = some []) ∧
      (root = none → (purge_cache root).2 = none) := by
  rintro (_ | l)
  · exact ⟨rfl, fun l h => by simp at h, fun _ => rfl⟩
  · exact ⟨rfl, fun l h => rfl, fun h => by simp at h⟩

/-- Witness for C8: purging a root with nested entries leaves it existing
and empty. -/
theorem purge_cache_witness :
    (purge_cache (some ["pkg1", "pkg2"])).2 = some [] :=
  (purge_cache_amended (some ["pkg1", "pkg2"])).2.1 ["pkg1", "pkg2"] rfl

/-! ### C1: a fetch attempt is all-or-nothing -/

/-- C1: for every fetch attempt and every starting filesystem state, the
attempt reports success exactly when every step succeeds; on any failure
(download error, archive not found, extraction error, unexpected exception)
the install dir does not exist on return and the staging dir does not exist;
on success the install dir exists with the `.yoinked` marker written and the
staging dir is removed. -/
theorem yoink_package_all_or_nothing :
    ∀ (outcome : FetchOutcome) (s : EngineFS),
      ((yoink_package outcome s).1 = true ↔ outcome = .success) ∧
      ((yoink_package outcome s).1 = false →
        (yoink_package outcome s).2.installDir = none ∧
        (yoink_package outcome s).2.stagingDir = false) ∧
      ((yoink_package outcome s).1 = true →
        (yoink_package outcome s).2.installDir = some true ∧
        (yoink_package outcome s).2.stagingDir = false) := by
  rintro (_ | _ | _ | c | _) ⟨(_ | m), st⟩ <;> cases st <;> (try cases m) <;>
    (try cases c) <;> decide

/-- Witness for C1: a failed download leaves no install dir and no staging
dir behind, starting from a state where a markerless install dir existed. -/
theorem yoink_package_witness :
    (yoink_package .downloadFail ⟨some false, false⟩).2.installDir = none ∧
    (yoink_package .downloadFail ⟨some false, false⟩).2.stagingDir = false :=
  (yoink_package_all_or_nothing .downloadFail ⟨some false, false⟩).2.1
    (by decide)

/-! ### C10: `register` is idempotent and order-preserving -/

theorem registerAll_nodup (pms reg : List PMClass) (h : reg.Nodup) :
    (registerAll pms reg).Nodup := by
  induction pms generalizing reg with
  | nil => simpa [registerAll]
  | cons pm rest ih =>
    have hstep : registerAll (pm :: rest) reg = registerAll rest (register pm reg) :=
      rfl
    rw [hstep]
    refine ih (register pm reg) ?_
    by_cases hmem : pm ∈ reg
    · simpa [register, hmem]
    · rw [register, if_neg hmem]
      simp [List.nodup_append, h, hmem]

/-- C10: `register` leaves the registry unchanged when the class is already
registered; registering twice equals registering once; every sequence of
`register` calls from the empty registry yields a duplicate-free list; and
`register` only ever appends, so the existing registry is a prefix of the new
one (first-registration order is preserved). -/
theorem register_idempotent_and_order_preserving :
    (∀ (pm : PMClass) (reg : List PMClass), pm ∈ reg → register pm reg = reg) ∧
    (∀ (pm : PMClass) (reg : List PMClass),
        register pm (register pm reg) = register pm reg) ∧
    (∀ pms : List PMClass, (registerAll pms []).Nodup) ∧
    (∀ (pm : PMClass) (reg : List PMClass), reg <+: register pm reg) := by
  refine ⟨?_, ?_, ?_, ?_⟩
  · intro pm reg h
    simp [register, h]
  · intro pm reg
    have hmem : pm ∈ register pm reg := by
      by_cases h : pm ∈ reg <;> simp [register, h]
    rw [register, if_pos hmem]
  · intro pms
    exact registerAll_nodup pms [] List.nodup_nil
  · intro pm reg
    by_cases h : pm ∈ reg
    · rw [register, if_pos h]
    · rw [register, if_neg h]
      exact List.prefix_append reg [pm]

/-- Witness for C10: registering an already-registered class is a no-op. -/
theorem register_idempotent_witness :
    register ⟨"apt-get", ["--version"]⟩ [⟨"apt-get", ["--version"]⟩] =
      [⟨"apt-get", ["--version"]⟩] :=
  register_idempotent_and_order_preserving.1 ⟨"apt-get", ["--version"]⟩
    [⟨"apt-get", ["--version"]⟩] (by decide)

/-! ### C4: `get_active` picks the first available backend -/

theorem get_active_eq_find (env : SysEnv) (reg : List PMClass) :
    get_active env reg = reg.find? (check_available env) := by
  induction reg with
  | nil => rfl
  | cons pm rest ih =>
    rw [get_active]
    by_cases h : check_available env pm = true
    · rw [if_pos h, List.find?_cons_of_pos rest h]
    · rw [if_neg (by simpa using h), List.find?_cons_of_neg rest (by simpa using h),
        ih]

/-- C4: `get_active` walks the registry in registration order and returns
the first backend whose availability check passes (it equals `List.find?` on
the registry), returning none exactly when no backend is available; a backend
is available exactly when its tool resolves on the search path AND the
version-query invocation exits successfully, so a resolving tool whose
invocation fails is not selected; and with a fixed registry and fixed
environment repeated calls agree. -/
theorem get_active_first_available :
    ∀ (env : SysEnv) (reg : List PMClass),
      get_active env reg = reg.find? (check_available env) ∧
      (∀ pm : PMClass, check_available env pm = true ↔
        ∃ p, env.which pm.checkCommandPath = some p ∧
          env.runOk p pm.checkCommandArgs = true) ∧
      (∀ (pm : PMClass) (p : String), env.which pm.checkCommandPath = some p →
        env.runOk p pm.checkCommandArgs = false →
        check_available env pm = false) ∧
      (get_active env reg = none ↔
        ∀ pm ∈ reg, check_available env pm = false) ∧
      get_active env reg = get_active env reg := by
  intro env reg
  refine ⟨get_active_eq_find env reg, ?_, ?_, ?_, rfl⟩
  · intro pm
    cases h : env.which pm.checkCommandPath with
    | none => simp [check_available, h]
    | some p => simp [check_available, h]
  · intro pm p h1 h2
    simp [check_available, h1, h2]
  · rw [get_active_eq_find env reg, List.find?_eq_none]
    simp

/-- Witness for C4: a tool that resolves on the path but whose version query
fails is not considered available. -/
theorem get_active_witness :
    check_available ⟨fun _ => some "/usr/bin/apt-get", fun _ _ => false⟩
      ⟨"apt-get", ["--version"]⟩ = false :=
  (get_active_first_available
      ⟨fun _ => some "/usr/bin/apt-get", fun _ _ => false⟩ []).2.2.1
    ⟨"apt-get", ["--version"]⟩ "/usr/bin/apt-get" rfl rfl

/-! ### C5: the executable locator searches a fixed set of directories -/

theorem findExecLoop_cons (fs : FsView) (cmd : String) (d : FsPath)
    (ds : List FsPath) :
    findExecLoop fs cmd (d :: ds) =
      if dirHit fs cmd d = true then some (d ++ [cmd])
      else findExecLoop fs cmd ds := by
  rw [findExecLoop]
  by_cases h1 : fs.isDir d = true
  · by_cases h2 : (fs.isFile (d ++ [cmd]) && fs.execOk (d ++ [cmd])) = true
    · simp [h1, h2, dirHit]
    · simp only [Bool.not_eq_true] at h2
      simp [h1, h2, dirHit]
  · simp only [Bool.not_eq_true] at h1
    simp [h1, dirHit]

theorem findExecLoop_eq_none_iff (fs : FsView) (cmd : String)
    (ds : List FsPath) :
    findExecLoop fs cmd ds = none ↔ ∀ d ∈ ds, dirHit fs cmd d = false := by
  induction ds with
  | nil => simp [findExecLoop]
  | cons d ds ih =>
    rw [findExecLoop_cons]
    by_cases h : dirHit fs cmd d = true
    · simp [h]
    · simp only [Bool.not_eq_true] at h
      simp [h, ih]

theorem findExecLoop_eq_some_iff (fs : FsView) (cmd : String)
    (ds : List FsPath) (r : FsPath) :
    findExecLoop fs cmd ds = some r ↔
      ∃ l1 d l2, ds = l1 ++ d :: l2 ∧ dirHit fs cmd d = true ∧
        (∀ e ∈ l1, dirHit fs cmd e = false) ∧ r = d ++ [cmd] := by
  induction ds with
  | nil =>
    simp only [findExecLoop]
    constructor
    · rintro h
      exact absurd h (by simp)
    · rintro ⟨l1, d, l2, hds, -, -, -⟩
      exact absurd hds (by simp)
  | cons d ds ih =>
    rw [findExecLoop_cons]
    by_cases h : dirHit fs cmd d = true
    · rw [if_pos h]
      constructor
      · intro hr
        injection hr with hr
        exact ⟨[], d, ds, rfl, h, by simp, hr.symm⟩
      · rintro ⟨l1, e, l2, hds, he, hl1, hr⟩
        cases l1 with
        | nil =>
          rw [List.nil_append] at hds
          injection hds with h1 h2
          rw [hr, h1]
        | cons x xs =>
          rw [List.cons_append] at hds
          injection hds with h1 h2
          have hx : dirHit fs cmd x = false := hl1 x (List.mem_cons_self x xs)
          rw [← h1, h] at hx
          exact absurd hx (by simp)
    · rw [if_neg h, ih]
      simp only [Bool.not_eq_true] at h
      constructor
      · rintro ⟨l1, e, l2, hds, he, hl1, hr⟩
        refine ⟨d :: l1, e, l2, by rw [List.cons_append, hds], he, ?_, hr⟩
        intro x hx
        rcases List.mem_cons.mp hx with hx | hx
        · rw [hx]; exact h
        · exact hl1 x hx
      · rintro ⟨l1, e, l2, hds, he, hl1, hr⟩
        cases l1 with
        | nil =>
          rw [List.nil_append] at hds
          injection hds with h1 h2
          rw [h1] at h
          rw [he] at h
          exact absurd h (by simp)
        | cons x xs =>
          rw [List.cons_append] at hds
          injection hds with h1 h2
          refine ⟨xs, e, l2, h2, he, ?_, hr⟩
          intro y hy
          exact hl1 y (List.mem_cons_of_mem x hy)

/-- C5: for every abstract filesystem, install dir and command name, the
locator searches exactly the fixed directories `bin`, `usr/bin`, `sbin`,
`usr/sbin`, `usr/local/bin` and the root itself, in that order (and nothing
else, in particular nothing recursive): it returns none exactly when no
candidate directory both exists and holds a regular executable file named
exactly the command, and it returns a path exactly when that path is the
candidate file of the first directory in the list that yields a hit. -/
theorem find_executable_fixed_search :
    ∀ (fs : FsView) (root : FsPath) (cmd : String),
      ( find_executable_in_prefix fs root cmd = none ↔
        ∀ d ∈ search_dirs root, dirHit fs cmd d = false) ∧
      (∀ r, find_executable_in_prefix fs root cmd = some r ↔
        ∃ l1 d l2, search_dirs root = l1 ++ d :: l2 ∧ dirHit fs cmd d = true ∧
          (∀ e ∈ l1, dirHit fs cmd e = false) ∧ r = d ++ [cmd]) ∧
      search_dirs root =
        [root ++ ["bin"], root ++ ["usr", "bin"], root ++ ["sbin"],
         root ++ ["usr", "sbin"], root ++ ["usr", "local", "bin"], root] :=
  fun fs root cmd =>
    ⟨findExecLoop_eq_none_iff fs cmd (search_dirs root),
     fun r => findExecLoop_eq_some_iff fs cmd (search_dirs root) r, rfl⟩

/-- Witness for C5: in a filesystem where only `opt/bin` is a directory and
only `opt/bin/tool` is an executable regular file, the locator run on the
root `opt` finds exactly that path. -/
theorem find_executable_witness :
    find_executable_in_prefix
      ⟨fun d => d == ["opt", "bin"], fun q => q == ["opt", "bin", "tool"],
        fun q => q == ["opt", "bin", "tool"]⟩ ["opt"] "tool" =
      some ["opt", "bin", "tool"] :=
  ((find_executable_fixed_search
      ⟨fun d => d == ["opt", "bin"], fun q => q == ["opt", "bin", "tool"],
        fun q => q == ["opt", "bin", "tool"]⟩ ["opt"] "tool").2.1
    ["opt", "bin", "tool"]).mpr
    ⟨[], ["opt", "bin"],
      [["opt", "usr", "bin"], ["opt", "sbin"], ["opt", "usr", "sbin"],
        ["opt", "usr", "local", "bin"], ["opt"]],
      by decide, by decide, by decide, by decide⟩

/-! ### C7: archive location in the backend adapters -/

theorem globStar_prefix_mono (p1 p2 s name : List Char) (hp : p1 <+: p2) :
    globStar p2 s name = true → globStar p1 s name = true := by
  intro h
  rw [globStar, Bool.and_eq_true, Bool.and_eq_true] at h
  obtain ⟨h1, h2, h3⟩ := h
  rw [globStar, Bool.and_eq_true, Bool.and_eq_true]
  refine ⟨?_, h2, ?_⟩
  · rw [ List.isPrefixOf_iff_prefix] at h1 ⊢
    exact hp.trans h1
  · rw [decide_eq_true_eq] at h3 ⊢
    have := hp.length_le
    omega

theorem two_pattern_head (entries : List (List Char))
    (strict loose : List Char → Bool) :
    ((if (entries.filter strict).isEmpty then entries.filter loose
        else entries.filter strict).head? = none ↔
      entries.filter strict = [] ∧ entries.filter loose = []) ∧
    (entries.filter strict ≠ [] →
      (if (entries.filter strict).isEmpty then entries.filter loose
        else entries.filter strict).head? = (entries.filter strict).head?) ∧
    (entries.filter strict = [] →
      (if (entries.filter strict).isEmpty then entries.filter loose
        else entries.filter strict).head? = (entries.filter loose).head?) := by
  by_cases h : entries.filter strict = []
  · simp [h, List.head?_eq_none_iff]
  · have h1 : (entries.filter strict).isEmpty = false := by
      simpa [List.isEmpty_iff] using h
    simp [h, h1, List.head?_eq_none_iff]
    obtain ⟨x, hx⟩ := List.exists_mem_of_ne_nil _ h
    have hx2 := List.mem_filter.mp hx
    exact ⟨x, hx2.1, hx2.2⟩

theorem mem_insertMtimeDesc (x y : List Char × Nat)
    (l : List (List Char × Nat)) :
    y ∈ insertMtimeDesc x l ↔ y = x ∨ y ∈ l := by
  induction l with
  | nil => simp [insertMtimeDesc]
  | cons a t ih =>
    rw [insertMtimeDesc]
    by_cases h : a.2 ≤ x.2
    · simp [h]
    · simp [h, ih, or_left_comm]

theorem insertMtimeDesc_ne_nil (x : List Char × Nat)
    (l : List (List Char × Nat)) : insertMtimeDesc x l ≠ [] := by
  cases l with
  | nil => simp [insertMtimeDesc]
  | cons a t =>
    rw [insertMtimeDesc]
    by_cases h : a.2 ≤ x.2 <;> simp [h]

theorem sortMtimeDesc_eq_nil_iff (l : List (List Char × Nat)) :
    sortMtimeDesc l = [] ↔ l = [] := by
  cases l with
  | nil => simp [sortMtimeDesc]
  | cons x t => simp [sortMtimeDesc, insertMtimeDesc_ne_nil]

theorem mem_sortMtimeDesc (y : List Char × Nat) (l : List (List Char × Nat)) :
    y ∈ sortMtimeDesc l ↔ y ∈ l := by
  induction l with
  | nil => simp [sortMtimeDesc]
  | cons x t ih => simp [sortMtimeDesc, mem_insertMtimeDesc, ih]

theorem insertMtimeDesc_head_ge (x : List Char × Nat)
    (l : List (List Char × Nat))
    (hl : ∀ y ∈ l, ∀ h, l.head? = some h → y.2 ≤ h.2) :
    ∀ h, (insertMtimeDesc x l).head? = some h →
      x.2 ≤ h.2 ∧ ∀ y ∈ l, y.2 ≤ h.2 := by
  cases l with
  | nil =>
    intro h hh
    rw [insertMtimeDesc] at hh
    simp only [List.head?_cons, Option.some.injEq] at hh
    subst hh
    exact ⟨le_refl _, by simp⟩
  | cons a t =>
    intro h hh
    rw [insertMtimeDesc] at hh
    by_cases hc : a.2 ≤ x.2
    · rw [if_pos hc] at hh
      simp only [List.head?_cons, Option.some.injEq] at hh
      subst hh
      refine ⟨le_refl _, ?_⟩
      intro y hy
      rcases List.mem_cons.mp hy with hy | hy
      · rw [hy]; exact hc
      · exact le_trans (hl y (List.mem_cons_of_mem a hy) a rfl) hc
    · rw [if_neg hc] at hh
      simp only [List.head?_cons, Option.some.injEq] at hh
      subst hh
      push_neg at hc
      refine ⟨le_of_lt hc, ?_⟩
      intro y hy
      exact hl y hy a rfl

theorem sortMtimeDesc_head_max (l : List (List Char × Nat)) :
    ∀ h, (sortMtimeDesc l).head? = some h → ∀ y ∈ l, y.2 ≤ h.2 := by
  induction l with
  | nil =>
    intro h hh
    simp [sortMtimeDesc] at hh
  | cons x t ih =>
    intro h hh
    rw [sortMtimeDesc] at hh
    have hl : ∀ y ∈ sortMtimeDesc t, ∀ h2,
        (sortMtimeDesc t).head? = some h2 → y.2 ≤ h2.2 := by
      intro y hy h2 hh2
      exact ih h2 hh2 y ((mem_sortMtimeDesc y t).mp hy)
    obtain ⟨hx, hrest⟩ := insertMtimeDesc_head_ge x (sortMtimeDesc t) hl h hh
    intro y hy
    rcases List.mem_cons.mp hy with hy | hy
    · rw [hy]; exact hx
    · exact hrest y ((mem_sortMtimeDesc y t).mpr hy)

theorem sortMtimeDesc_head_mem (l : List (List Char × Nat))
    (h : List Char × Nat) (hh : (sortMtimeDesc l).head? = some h) : h ∈ l :=
  (mem_sortMtimeDesc h l).mp (List.mem_of_mem_head? hh)

theorem pacmanLoop_eq_none_iff (entries : List (List Char × Nat))
    (base : List Char) (exts : List (List Char)) :
    pacmanLoop entries base exts = none ↔
      ∀ ext ∈ exts, pacmanMatches entries base ext = [] := by
  induction exts with
  | nil => simp [pacmanLoop]
  | cons ext rest ih =>
    rw [pacmanLoop]
    by_cases h : pacmanMatches entries base ext = []
    · simp [h, ih]
    · have h1 : (pacmanMatches entries base ext).isEmpty = false := by
        simpa [List.isEmpty_iff] using h
      simp [h1, h, Option.map_eq_none', List.head?_eq_none_iff,
        sortMtimeDesc_eq_nil_iff]

theorem pacmanLoop_eq_some (entries : List (List Char × Nat))
    (base : List Char) (exts : List (List Char)) (f : List Char) :
    pacmanLoop entries base exts = some f →
      ∃ l1 ext l2, exts = l1 ++ ext :: l2 ∧
        (∀ e ∈ l1, pacmanMatches entries base e = []) ∧
        ∃ t, (f, t) ∈ pacmanMatches entries base ext ∧
          ∀ g ∈ pacmanMatches entries base ext, g.2 ≤ t := by
  induction exts with
  | nil => intro h; simp [pacmanLoop] at h
  | cons ext rest ih =>
    intro h
    rw [pacmanLoop] at h
    by_cases hm : pacmanMatches entries base ext = []
    · have h1 : (pacmanMatches entries base ext).isEmpty = true := by
        simp [List.isEmpty_iff, hm]
      rw [h1] at h
      simp only [if_true] at h
      obtain ⟨l1, e, l2, hx, hl1, ht⟩ := ih h
      refine ⟨ext :: l1, e, l2, by rw [List.cons_append, hx], ?_, ht⟩
      intro y hy
      rcases List.mem_cons.mp hy with hy | hy
      · rw [hy]; exact hm
      · exact hl1 y hy
    · have h1 : (pacmanMatches entries base ext).isEmpty = false := by
        simpa [List.isEmpty_iff] using hm
      rw [h1] at h
      simp only [Bool.false_eq_true, if_false] at h
      obtain ⟨⟨g, t⟩, hh, hg⟩ := Option.map_eq_some'.mp h
      refine ⟨[], ext, rest, rfl, by simp, t, ?_, ?_⟩
      · have hmem := sortMtimeDesc_head_mem _ _ hh
        simpa [← hg] using hmem
      · intro g2 hg2
        exact sortMtimeDesc_head_max _ _ hh g2 hg2

/-- C7 counterexample: the pacman adapter does not follow the claimed
strict-pattern-then-looser-fallback scheme.  The pattern pacman tries second
(`base-*.pkg.tar.xz`) is not looser than the pattern it tries first
(`base-*.pkg.tar.zst`): a name matching the first fails the second.  And in a
staging directory where both of those first two patterns match nothing,
pacman still returns an archive (via its third pattern), so its fallback
structure is a five-pattern extension list, not a strict/loose pair. -/
theorem pacman_not_strict_then_loose :
    globStar ("foo".data ++ ['-']) ".pkg.tar.zst".data
      "foo-1.pkg.tar.zst".data = true ∧
    globStar ("foo".data ++ ['-']) ".pkg.tar.xz".data
      "foo-1.pkg.tar.zst".data = false ∧
    Pacman.find_downloaded_archive [("foo-1.pkg.tar.gz".data, 0)] "foo".data =
      some "foo-1.pkg.tar.gz".data := by
  refine ⟨by decide, by decide, by decide⟩

/-- C7 amended: apt and dnf locate the archive by a strict glob
(`base_*.deb` resp. `base-*.rpm`) first and, exactly when it matches nothing,
by a strictly looser fallback glob (`base*.deb` resp. `base*.rpm`), returning
not-found only if both fail and tie-breaking deterministically by first
directory entry; pacman instead tries five extension-specific globs
(`base-*` plus each `.pkg.tar.*` extension) in a fixed order — none a looser
fallback of another — returning not-found only when all five fail and
tie-breaking deterministically by most-recently-modified file among the
matches of the first extension that matches. -/
theorem find_downloaded_archive_patterns :
    (∀ (entries : List (List Char)) (base : List Char),
      ( APT.find_downloaded_archive entries base = none ↔
        entries.filter (globStar (base ++ ['_']) ".deb".data) = [] ∧
        entries.filter (globStar base ".deb".data) = []) ∧
      (entries.filter (globStar (base ++ ['_']) ".deb".data) ≠ [] →
        APT.find_downloaded_archive entries base =
          (entries.filter (globStar (base ++ ['_']) ".deb".data)).head?) ∧
      (entries.filter (globStar (base ++ ['_']) ".deb".data) = [] →
        APT.find_downloaded_archive entries base =
          (entries.filter (globStar base ".deb".data)).head?)) ∧
    (∀ base name : List Char,
      globStar (base ++ ['_']) ".deb".data name = true →
      globStar base ".deb".data name = true) ∧
    (∀ (entries : List (List Char)) (base : List Char),
      ( DNF.find_downloaded_archive entries base = none ↔
        entries.filter (globStar (base ++ ['-']) ".rpm".data) = [] ∧
        entries.filter (globStar base ".rpm".data) = []) ∧
      (entries.filter (globStar (base ++ ['-']) ".rpm".data) ≠ [] →
        DNF.find_downloaded_archive entries base =
          (entries.filter (globStar (base ++ ['-']) ".rpm".data)).head?) ∧
      (entries.filter (globStar (base ++ ['-']) ".rpm".data) = [] →
        DNF.find_downloaded_archive entries base =
          (entries.filter (globStar base ".rpm".data)).head?)) ∧
    (∀ base name : List Char,
      globStar (base ++ ['-']) ".rpm".data name = true →
      globStar base ".rpm".data name = true) ∧
    (∀ (entries : List (List Char × Nat)) (base : List Char),
      ( Pacman.find_downloaded_archive entries base = none ↔
        ∀ ext ∈ pacmanExtensions, pacmanMatches entries base ext = []) ∧
      (∀ f, Pacman.find_downloaded_archive entries base = some f →
        ∃ l1 ext l2, pacmanExtensions = l1 ++ ext :: l2 ∧
          (∀ e ∈ l1, pacmanMatches entries base e = []) ∧
          ∃ t, (f, t) ∈ pacmanMatches entries base ext ∧
            ∀ g ∈ pacmanMatches entries base ext, g.2 ≤ t)) := by
  refine ⟨?_, ?_, ?_, ?_, ?_⟩
  · intro entries base
    exact two_pattern_head entries (globStar (base ++ ['_']) ".deb".data)
      (globStar base ".deb".data)
  · intro base name
    exact globStar_prefix_mono base (base ++ ['_']) ".deb".data name
      ( List.prefix_append base ['_'])
  · intro entries base
    exact two_pattern_head entries (globStar (base ++ ['-']) ".rpm".data)
      (globStar base ".rpm".data)
  · intro base name
    exact globStar_prefix_mono base (base ++ ['-']) ".rpm".data name
      ( List.prefix_append base ['-'])
  · intro entries base
    exact ⟨pacmanLoop_eq_none_iff entries base pacmanExtensions,
      fun f => pacmanLoop_eq_some entries base pacmanExtensions f⟩

/-- Witness for C7 at a concrete apt staging directory with a strict match. -/
theorem find_downloaded_archive_witness :
    APT.find_downloaded_archive ["foo_1.deb".data, "bar.deb".data] "foo".data =
      some "foo_1.deb".data := by
  have h := (find_downloaded_archive_patterns.1
    ["foo_1.deb".data, "bar.deb".data] "foo".data).2.1 (by decide)
  exact h.trans (by decide)

end Yoink
